import Mathlib

/-!
Verification of the ammeter testing framework core.

Shallow embedding of the framework's Python modules:
* `framework/unified_api.py` — `Measurement`, `AmmeterClient.measure`
* `framework/faults.py` — `FaultInjector.apply`
* `framework/sampler.py` — `Sampler.run`
* `framework/analysis.py` — `compute_stats`, `split_by_ammeter`,
  `stats_by_ammeter`, `_pearson`, `pairwise_agreement`, `reliability_ranking`

Modelling conventions:
* Python `float` values are embedded as `ℚ` wherever the code only adds,
  multiplies and divides, and as `ℝ` where `math.sqrt` is involved
  (standard deviation, rmse, Pearson correlation, ranking scores);
  floating-point rounding is abstracted away.
* Python `str` payloads received from the wire are embedded as `List Char`
  (a Python string is a sequence of code points); stored tags reuse `String`.
* The shared random source is made explicit: each call to
  `random.random()` becomes a named rational draw in `Rolls` (the real
  generator only ever yields values in `[0, 1)`, which becomes a hypothesis
  where it matters), and the one call to `random.randint(a, b)` becomes the
  integer draw `Rolls.delayMs` whose contract is `validDelay`.
* `time.sleep` has no observable effect on the produced data and is dropped;
  the monotonic clock readings taken by the sampler loop are abstracted as
  an arbitrary function `elapsed : ℕ → ℚ` of the tick index.
-/

/-- Embedding of the `Measurement` dataclass from `framework/unified_api.py`.
Field names and order follow the source. -/
structure Measurement where
  ammeter : String
  timestamp_monotonic : ℚ
  wall_time_epoch : ℚ
  value_a : Option ℚ
  latency_s : ℚ
  ok : Bool
  error : Option String := none
deriving DecidableEq

/-- Embedding of the `FaultInjectionCfg` dataclass from
`framework/config_loader.py` (defaults as in the source). -/
structure FaultInjectionCfg where
  enabled : Bool := false
  drop_prob : ℚ := 0
  delay_prob : ℚ := 0
  delay_ms_min : ℤ := 0
  delay_ms_max : ℤ := 0
  corrupt_prob : ℚ := 0
  outlier_prob : ℚ := 0
  outlier_scale : ℚ := 5
deriving DecidableEq

/-- The explicit random draws consumed by one call of `FaultInjector.apply`:
`rDrop`, `rDelay`, `rCorrupt`, `rOutlier` are the successive
`random.random()` results, and `delayMs` is the result of
`random.randint(cfg.delay_ms_min, max(cfg.delay_ms_min, cfg.delay_ms_max))`. -/
structure Rolls where
  rDrop : ℚ
  rDelay : ℚ
  rCorrupt : ℚ
  rOutlier : ℚ
  delayMs : ℤ
deriving DecidableEq

/-- The clamped upper bound `max(self.cfg.delay_ms_min, self.cfg.delay_ms_max)`
passed to `random.randint` in the delay branch of `FaultInjector.apply`. -/
def delayUpper (cfg : FaultInjectionCfg) : ℤ :=
  max cfg.delay_ms_min cfg.delay_ms_max

/-- Contract of `random.randint(a, b)` for the delay branch: the sampled
integer lies in the inclusive range `[delay_ms_min, delayUpper cfg]`.
(`random.randint` raises only when its upper bound is below its lower bound,
which the `max` clamp rules out.) -/
def validDelay (cfg : FaultInjectionCfg) (d : ℤ) : Prop :=
  cfg.delay_ms_min ≤ d ∧ d ≤ delayUpper cfg

/-- The delay branch of `FaultInjector.apply` (`framework/faults.py`):
when the delay roll fires, the measurement is rebuilt with the sampled
delay (in seconds) added to `latency_s`, all other fields copied. -/
def delayStep (cfg : FaultInjectionCfg) (rolls : Rolls) (m : Measurement) : Measurement :=
  if rolls.rDelay < cfg.delay_prob then
    { ammeter := m.ammeter
      timestamp_monotonic := m.timestamp_monotonic
      wall_time_epoch := m.wall_time_epoch
      value_a := m.value_a
      latency_s := m.latency_s + (rolls.delayMs : ℚ) / 1000
      ok := m.ok
      error := m.error }
  else m

/-- Embedding of `FaultInjector.apply` from `framework/faults.py`, with the
random draws passed explicitly.  Branch order follows the source: disabled
pass-through, drop (early return), delay (in-place replacement), corrupt
(early return), outlier (early return, only for `ok` measurements with a
value), final pass-through. -/
def FaultInjector.apply (cfg : FaultInjectionCfg) (rolls : Rolls) (m : Measurement) :
    Measurement :=
  if cfg.enabled = false then m
  else if rolls.rDrop < cfg.drop_prob then
    { ammeter := m.ammeter
      timestamp_monotonic := m.timestamp_monotonic
      wall_time_epoch := m.wall_time_epoch
      value_a := none
      latency_s := m.latency_s
      ok := false
      error := some "fault_drop" }
  else
    let m1 := delayStep cfg rolls m
    if rolls.rCorrupt < cfg.corrupt_prob then
      { ammeter := m1.ammeter
        timestamp_monotonic := m1.timestamp_monotonic
        wall_time_epoch := m1.wall_time_epoch
        value_a := none
        latency_s := m1.latency_s
        ok := false
        error := some "fault_corrupt" }
    else
      match m1.ok, m1.value_a with
      | true, some v =>
        if rolls.rOutlier < cfg.outlier_prob then
          { ammeter := m1.ammeter
            timestamp_monotonic := m1.timestamp_monotonic
            wall_time_epoch := m1.wall_time_epoch
            value_a := some (v * cfg.outlier_scale)
            latency_s := m1.latency_s
            ok := true
            error := some "fault_outlier" }
        else m1
      | _, _ => m1

/-- Outcome of the single request/response exchange performed inside the
`try` block of `AmmeterClient.measure` (`framework/unified_api.py`):
either the decoded received text (`recv`, possibly empty), or a raised
transport-level exception (`exn`) with its Python type name and message. -/
inductive NetOutcome where
  | recv (data : List Char)
  | exn (ty msg : List Char)
deriving DecidableEq

/-- Python `repr(e)` for a caught exception: `TypeName(message)`
(argument quoting abstracted away; what matters for the claims is the
shape `name ++ parenthesised text`). -/
def pyRepr (ty msg : List Char) : List Char :=
  ty ++ '(' :: (msg ++ [')'])

/-- Python `str.strip()`: remove leading and trailing whitespace. -/
def pyStrip (s : List Char) : List Char :=
  ((s.dropWhile Char.isWhitespace).reverse.dropWhile Char.isWhitespace).reverse

/-- Embedding of `AmmeterClient.measure` from `framework/unified_api.py`.

`pf` embeds the Python `float` literal parser (a library function, passed
in abstractly: `pf resp = some v` exactly when `float(resp)` succeeds with
value `v`).  `t0`/`epoch` are the monotonic and wall-clock readings taken
before any I/O, `t1` the monotonic reading taken when the result is built,
so `latency_s = t1 - t0`.  Branch order follows the source: empty payload,
`ERROR:`-prefixed payload (checked on the stripped text), successful parse,
parse failure (caught `ValueError`), caught transport exception. -/
def AmmeterClient.measure (name : String) (pf : List Char → Option ℚ)
    (outcome : NetOutcome) (t0 epoch t1 : ℚ) : Measurement :=
  match outcome with
  | .recv data =>
    if data = [] then
      { ammeter := name, timestamp_monotonic := t0, wall_time_epoch := epoch
        value_a := none, latency_s := t1 - t0, ok := false, error := some "no_data" }
    else
      let resp := pyStrip data
      if List.isPrefixOf "ERROR:".data resp then
        { ammeter := name, timestamp_monotonic := t0, wall_time_epoch := epoch
          value_a := none, latency_s := t1 - t0, ok := false, error := some (String.mk resp) }
      else
        match pf resp with
        | some v =>
          { ammeter := name, timestamp_monotonic := t0, wall_time_epoch := epoch
            value_a := some v, latency_s := t1 - t0, ok := true, error := none }
        | none =>
          { ammeter := name, timestamp_monotonic := t0, wall_time_epoch := epoch
            value_a := none, latency_s := t1 - t0, ok := false
            error := some (String.mk (pyRepr "ValueError".data resp)) }
  | .exn ty msg =>
    { ammeter := name, timestamp_monotonic := t0, wall_time_epoch := epoch
      value_a := none, latency_s := t1 - t0, ok := false
      error := some (String.mk (pyRepr ty msg)) }

/-- Embedding of the `SamplingCfg` dataclass from `framework/config_loader.py`. -/
structure SamplingCfg where
  measurements_count : Option ℕ
  total_duration_seconds : Option ℚ
  sampling_frequency_hz : ℚ
deriving DecidableEq

/-- First stop condition of `Sampler.run` (`framework/sampler.py`):
`measurements_count` is set and the tick index has reached it. -/
def countStop (cfg : SamplingCfg) (n : ℕ) : Bool :=
  match cfg.measurements_count with
  | some cnt => decide (cnt ≤ n)
  | none => false

/-- Second stop condition of `Sampler.run`: `total_duration_seconds` is set
and the elapsed monotonic time `time.monotonic() - t_start` has reached it. -/
def durationStop (cfg : SamplingCfg) (elapsed : ℚ) : Bool :=
  match cfg.total_duration_seconds with
  | some dur => decide (dur ≤ elapsed)
  | none => false

/-- Loop body of `Sampler.run` (`framework/sampler.py`), with the wall
clock abstracted: `elapsed n` is the elapsed monotonic time observed by the
duration stop-check at the top of tick `n` (for a real monotonic clock it
is nonnegative), and `measureF n c` is the `Measurement` obtained for
client `c` on tick `n` (the result of `c.measure()` filtered through
`FaultInjector.apply` when faults are configured).  The sleep that aligns
tick `n` to `t_start + n * period` does not affect the collected data and
is dropped.  `fuel` bounds the number of iterations; the source loop has no
such bound, so running out of fuel (`none`) models an unfinished loop. -/
def Sampler.runAux (cfg : SamplingCfg) (clients : List String)
    (measureF : ℕ → String → Measurement) (elapsed : ℕ → ℚ) :
    ℕ → ℕ → List Measurement → Option (List Measurement)
  | 0, _, _ => none
  | fuel + 1, n, acc =>
    if countStop cfg n then some acc
    else if durationStop cfg (elapsed n) then some acc
    else
      Sampler.runAux cfg clients measureF elapsed fuel (n + 1)
        (acc ++ clients.map (fun c => measureF n c))

/-- Embedding of `Sampler.run`: start at tick 0 with an empty output list. -/
def Sampler.run (cfg : SamplingCfg) (clients : List String)
    (measureF : ℕ → String → Measurement) (elapsed : ℕ → ℚ) (fuel : ℕ) :
    Option (List Measurement) :=
  Sampler.runAux cfg clients measureF elapsed fuel 0 []

/-- Embedding of the `Stats` dataclass from `framework/analysis.py`.
`std_dev` lives in `ℝ` because `statistics.pstdev` takes a square root;
the other statistics only use field arithmetic and stay in `ℚ`. -/
structure Stats where
  count : ℕ
  ok_count : ℕ
  mean : Option ℚ
  median : Option ℚ
  std_dev : Option ℝ
  min : Option ℚ
  max : Option ℚ

/-- `statistics.fmean`: arithmetic mean, sum divided by length. -/
def fmean (l : List ℚ) : ℚ :=
  l.sum / l.length

/-- Python `sorted` on numbers, embedded as a stable insertion sort (Python
guarantees its sort is stable; for numbers stability is irrelevant). -/
def pysorted (l : List ℚ) : List ℚ :=
  List.insertionSort (fun a b : ℚ => a ≤ b) l

/-- `statistics.median`: middle element of the sorted list for odd length,
average of the two middle elements for even length.  (The source only ever
calls it on nonempty lists; the `[]` case here is an arbitrary total
extension of a Python call that would raise.) -/
def pymedian (l : List ℚ) : ℚ :=
  let s := pysorted l
  if l.length % 2 = 1 then s.getD (l.length / 2) 0
  else (s.getD (l.length / 2 - 1) 0 + s.getD (l.length / 2) 0) / 2

/-- Python `min` over a nonempty list (`[]` again an arbitrary total
extension of a call that would raise). -/
def pymin (l : List ℚ) : ℚ :=
  match l with
  | [] => 0
  | x :: xs => xs.foldl min x

/-- Python `max` over a nonempty list. -/
def pymax (l : List ℚ) : ℚ :=
  match l with
  | [] => 0
  | x :: xs => xs.foldl max x

/-- `statistics.pvariance`: population variance, the mean of squared
deviations from the mean — divide by N, not N−1. -/
def pvariance (l : List ℚ) : ℚ :=
  ((l.map (fun x => (x - fmean l) ^ 2)).sum) / l.length

/-- `statistics.pstdev`: square root of the population variance. -/
noncomputable def pstdev (l : List ℚ) : ℝ :=
  Real.sqrt (pvariance l)

/-- Embedding of `compute_stats` from `framework/analysis.py`. -/
noncomputable def compute_stats (values : List ℚ) : Stats :=
  if values = [] then
    { count := 0, ok_count := 0, mean := none, median := none
      std_dev := none, min := none, max := none }
  else
    { count := values.length
      ok_count := values.length
      mean := some (fmean values)
      median := some (pymedian values)
      std_dev := some (if 2 ≤ values.length then pstdev values else 0)
      min := some (pymin values)
      max := some (pymax values) }

/-- One `out.setdefault(m.ammeter, []).append(m)` step of
`split_by_ammeter`: append `m` to the group keyed by its ammeter, creating
the group at the end of the association list when the key is new (Python
dicts preserve insertion order). -/
def addToGroup : List (String × List Measurement) → Measurement →
    List (String × List Measurement)
  | [], m => [(m.ammeter, [m])]
  | (k, g) :: rest, m =>
    if k = m.ammeter then (k, g ++ [m]) :: rest else (k, g) :: addToGroup rest m

/-- Embedding of `split_by_ammeter` from `framework/analysis.py`: the
insertion-ordered dict of per-ammeter measurement groups, as an
association list. -/
def split_by_ammeter (measurements : List Measurement) :
    List (String × List Measurement) :=
  measurements.foldl addToGroup []

/-- Dict lookup `by[name]` on a `split_by_ammeter` result (`[]` when the
key is absent; the source only looks up keys that are present). -/
def groupOf (groups : List (String × List Measurement)) (name : String) :
    List Measurement :=
  ((groups.find? (fun q => q.1 = name)).map Prod.snd).getD []

/-- The list comprehension `[m.value_a for m in ms if m.ok and m.value_a is
not None]` used by `stats_by_ammeter` and `pairwise_agreement`. -/
def okValues (ms : List Measurement) : List ℚ :=
  ms.filterMap (fun m => if m.ok then m.value_a else none)

/-- The per-group `Stats` record built inside the `stats_by_ammeter` loop:
`compute_stats` over the group's ok values, with `count` overridden by the
total group size and `ok_count` by the number of ok values. -/
noncomputable def statsOf (g : List Measurement) : Stats :=
  let vals := okValues g
  let s := compute_stats vals
  { count := g.length
    ok_count := vals.length
    mean := s.mean
    median := s.median
    std_dev := s.std_dev
    min := s.min
    max := s.max }

/-- Embedding of `stats_by_ammeter` from `framework/analysis.py`. -/
noncomputable def stats_by_ammeter (measurements : List Measurement) :
    List (String × Stats) :=
  (split_by_ammeter measurements).map (fun p => (p.1, statsOf p.2))

/-- Embedding of the `Agreement` dataclass from `framework/analysis.py`
(`rmse` and `correlation` involve `math.sqrt` and live in `ℝ`). -/
structure Agreement where
  mae : Option ℚ
  rmse : Option ℝ
  correlation : Option ℝ
  paired_count : ℕ

/-- Embedding of `_pearson` from `framework/analysis.py`: `none` when either
series has fewer than two points or either denominator (root of the summed
squared deviations) is zero. -/
noncomputable def pearson (x y : List ℚ) : Option ℝ :=
  if x.length < 2 ∨ y.length < 2 then none
  else
    let mx := fmean x
    let my := fmean y
    let num : ℚ := ((x.zip y).map (fun p => (p.1 - mx) * (p.2 - my))).sum
    let denx : ℝ := Real.sqrt (((x.map (fun a => (a - mx) ^ 2)).sum : ℚ))
    let deny : ℝ := Real.sqrt (((y.map (fun b => (b - my) ^ 2)).sum : ℚ))
    if denx = 0 ∨ deny = 0 then none
    else some (num / (denx * deny))

/-- Body of the `pairwise_agreement` double loop for one name pair, taking
the two ok-value series: truncate both to the shorter length, then either
the all-`None` record (no pairs) or mae / rmse / Pearson over the pairs. -/
noncomputable def pairAgreement (xs0 ys0 : List ℚ) : Agreement :=
  let n := min xs0.length ys0.length
  let xs := xs0.take n
  let ys := ys0.take n
  if n = 0 then { mae := none, rmse := none, correlation := none, paired_count := 0 }
  else
    let diffs := (xs.zip ys).map (fun p => |p.1 - p.2|)
    { mae := some (fmean diffs)
      rmse := some (Real.sqrt ((fmean ((xs.zip ys).map (fun p => (p.1 - p.2) ^ 2)) : ℚ)))
      correlation := pearson xs ys
      paired_count := n }

/-- Python string comparison (lexicographic on code points), as the Boolean
`a <= b`, used to embed `sorted(by.keys())`. -/
def charListLe : List Char → List Char → Bool
  | [], _ => true
  | _ :: _, [] => false
  | a :: as, b :: bs =>
    if a = b then charListLe as bs else decide (a.toNat < b.toNat)

/-- String `<=` on the underlying code-point sequences. -/
def strLe (a b : String) : Bool :=
  charListLe a.data b.data

/-- The index pairs `(i, j)` with `i < j` of the `pairwise_agreement`
double loop, as the ordered list of element pairs. -/
def allPairs : List String → List (String × String)
  | [] => []
  | x :: xs => xs.map (fun y => (x, y)) ++ allPairs xs

/-- Embedding of `pairwise_agreement` from `framework/analysis.py`:
iterate over the sorted device names, and for each pair `(a, b)` with
`a` before `b`, compare the two devices' ok-value series. -/
noncomputable def pairwise_agreement (measurements : List Measurement) :
    List ((String × String) × Agreement) :=
  let groups := split_by_ammeter measurements
  let names := List.insertionSort (fun a b => strLe a b = true) (groups.map Prod.fst)
  (allPairs names).map (fun p =>
    (p, pairAgreement (okValues (groupOf groups p.1)) (okValues (groupOf groups p.2))))

/-- `(s.ok_count / s.count) if s.count else 0.0` from `reliability_ranking`. -/
def successRate (s : Stats) : ℚ :=
  if s.count = 0 then 0 else (s.ok_count : ℚ) / (s.count : ℚ)

/-- `1.0 / (1.0 + (s.std_dev or 0.0))` from `reliability_ranking`
(`or 0.0` collapses both `None` and `0.0` to `0.0`). -/
noncomputable def stability (s : Stats) : ℝ :=
  1 / (1 + s.std_dev.getD 0)

/-- The first `reliability_ranking` loop: starting from `{n: 0.0}`, add
`2.0 * success + stability` to each ammeter's score.  Scores are kept as a
total function on names; the source keeps a dict over exactly the stats
keys, which agrees with this on those keys. -/
noncomputable def baseScores (stats : List (String × Stats)) : String → ℝ :=
  stats.foldl
    (fun sc p => fun n =>
      if n = p.1 then sc n + (2 * (successRate p.2 : ℝ) + stability p.2) else sc n)
    (fun _ => 0)

/-- The agreement bonus one `agreements` entry contributes to ammeter `n` in
the second `reliability_ranking` loop: skipped entirely when `rmse` is
`None`, otherwise `1.0 / (1.0 + rmse)` to each endpoint. -/
noncomputable def bonusFor (n : String) (p : (String × String) × Agreement) : ℝ :=
  match p.2.rmse with
  | none => 0
  | some r => (if n = p.1.1 then 1 / (1 + r) else 0) + (if n = p.1.2 then 1 / (1 + r) else 0)

/-- One step of the second `reliability_ranking` loop. -/
noncomputable def addAgreementScores (sc : String → ℝ)
    (p : (String × String) × Agreement) : String → ℝ :=
  fun n => sc n + bonusFor n p

/-- The score map after both `reliability_ranking` loops. -/
noncomputable def finalScores (stats : List (String × Stats))
    (agreements : List ((String × String) × Agreement)) : String → ℝ :=
  agreements.foldl addAgreementScores (baseScores stats)

/-- Embedding of `reliability_ranking` from `framework/analysis.py`:
`sorted(names, key=lambda n: scores[n], reverse=True)` — a stable sort
putting higher scores first, embedded as a stable insertion sort with the
relation `score b <= score a`. -/
noncomputable def reliability_ranking (stats : List (String × Stats))
    (agreements : List ((String × String) × Agreement)) : List String :=
  List.insertionSort
    (fun a b => finalScores stats agreements b ≤ finalScores stats agreements a)
    (stats.map Prod.fst)

lemma delayStep_ammeter (cfg : FaultInjectionCfg) (rolls : Rolls) (m : Measurement) :
    (delayStep cfg rolls m).ammeter = m.ammeter := by
  unfold delayStep; split <;> rfl

lemma delayStep_timestamp (cfg : FaultInjectionCfg) (rolls : Rolls) (m : Measurement) :
    (delayStep cfg rolls m).timestamp_monotonic = m.timestamp_monotonic := by
  unfold delayStep; split <;> rfl

lemma delayStep_ok (cfg : FaultInjectionCfg) (rolls : Rolls) (m : Measurement) :
    (delayStep cfg rolls m).ok = m.ok := by
  unfold delayStep; split <;> rfl

lemma delayStep_value (cfg : FaultInjectionCfg) (rolls : Rolls) (m : Measurement) :
    (delayStep cfg rolls m).value_a = m.value_a := by
  unfold delayStep; split <;> rfl

lemma delayStep_error (cfg : FaultInjectionCfg) (rolls : Rolls) (m : Measurement) :
    (delayStep cfg rolls m).error = m.error := by
  unfold delayStep; split <;> rfl

/-- C7: with fault injection disabled, or enabled with all four fault
probabilities equal to 0, `FaultInjector.apply` returns its input
unchanged on every field (the nonnegativity hypotheses record that
`random.random()` only yields values in `[0, 1)`). -/
theorem fault_injector_identity (cfg : FaultInjectionCfg) (rolls : Rolls) (m : Measurement) :
    (cfg.enabled = false → FaultInjector.apply cfg rolls m = m) ∧
    (cfg.enabled = true → cfg.drop_prob = 0 → cfg.delay_prob = 0 →
      cfg.corrupt_prob = 0 → cfg.outlier_prob = 0 →
      0 ≤ rolls.rDrop → 0 ≤ rolls.rDelay → 0 ≤ rolls.rCorrupt → 0 ≤ rolls.rOutlier →
      FaultInjector.apply cfg rolls m = m) := by
  constructor
  · intro h
    simp [FaultInjector.apply, h]
  · intro he hd hdel hc ho h1 h2 h3 h4
    have hnd : ¬ rolls.rDrop < cfg.drop_prob := by rw [hd]; exact not_lt.mpr h1
    have hne : ¬ rolls.rDelay < cfg.delay_prob := by rw [hdel]; exact not_lt.mpr h2
    have hnc : ¬ rolls.rCorrupt < cfg.corrupt_prob := by rw [hc]; exact not_lt.mpr h3
    have hno : ¬ rolls.rOutlier < cfg.outlier_prob := by rw [ho]; exact not_lt.mpr h4
    have hm1 : delayStep cfg rolls m = m := by simp [delayStep, hne]
    unfold FaultInjector.apply
    rw [he]
    simp only [Bool.true_eq_false, if_false, if_neg hnd, if_neg hnc, hm1]
    cases hok : m.ok <;> cases hv : m.value_a <;> simp [hno]

def mSample : Measurement :=
  { ammeter := "a", timestamp_monotonic := 1, wall_time_epoch := 2
    value_a := some 3, latency_s := 0, ok := true, error := none }

def cfgOffW : FaultInjectionCfg := {}

def cfgZeroW : FaultInjectionCfg := { enabled := true }

def rollsW : Rolls := ⟨0, 0, 0, 0, 7⟩

theorem fault_injector_identity_witness :
    FaultInjector.apply cfgOffW rollsW mSample = mSample ∧
    FaultInjector.apply cfgZeroW rollsW mSample = mSample :=
  ⟨(fault_injector_identity cfgOffW rollsW mSample).1 rfl,
   (fault_injector_identity cfgZeroW rollsW mSample).2 rfl rfl rfl rfl rfl
     (by decide) (by decide) (by decide) (by decide)⟩

/-- C8: with injection enabled and `drop_prob = 1.0`, every call whose drop
roll is a genuine `random.random()` outcome (so `< 1`) returns the dropped
measurement: `ok=false`, no value, `error="fault_drop"`, all other fields
copied from the input — and the result does not depend on the delay,
corrupt or outlier rolls, which are short-circuited. -/
theorem fault_drop_forces_failure (cfg : FaultInjectionCfg) (rolls : Rolls)
    (m : Measurement) (he : cfg.enabled = true) (hd : cfg.drop_prob = 1)
    (hr : rolls.rDrop < 1) :
    FaultInjector.apply cfg rolls m =
      { ammeter := m.ammeter, timestamp_monotonic := m.timestamp_monotonic
        wall_time_epoch := m.wall_time_epoch, value_a := none
        latency_s := m.latency_s, ok := false, error := some "fault_drop" } := by
  have hlt : rolls.rDrop < cfg.drop_prob := by rw [hd]; exact hr
  simp [FaultInjector.apply, he, hlt]

def cfgDropW : FaultInjectionCfg := { enabled := true, drop_prob := 1 }

theorem fault_drop_forces_failure_witness :
    FaultInjector.apply cfgDropW rollsW mSample =
      { ammeter := mSample.ammeter, timestamp_monotonic := mSample.timestamp_monotonic
        wall_time_epoch := mSample.wall_time_epoch, value_a := none
        latency_s := mSample.latency_s, ok := false, error := some "fault_drop" } :=
  fault_drop_forces_failure cfgDropW rollsW mSample rfl rfl (by decide)

/-- C9: every branch of `FaultInjector.apply` returns a measurement with
the same device identifier and the same scheduled monotonic timestamp as
the input, and the delay branch itself adds the sampled delay (in seconds)
to `latency_s` while leaving `ok`, `value_a` and `error` unchanged. -/
theorem fault_apply_frame (cfg : FaultInjectionCfg) (rolls : Rolls) (m : Measurement) :
    ((FaultInjector.apply cfg rolls m).ammeter = m.ammeter ∧
     (FaultInjector.apply cfg rolls m).timestamp_monotonic = m.timestamp_monotonic) ∧
    ((delayStep cfg rolls m).ammeter = m.ammeter ∧
     (delayStep cfg rolls m).timestamp_monotonic = m.timestamp_monotonic ∧
     (delayStep cfg rolls m).ok = m.ok ∧
     (delayStep cfg rolls m).value_a = m.value_a ∧
     (delayStep cfg rolls m).error = m.error ∧
     (rolls.rDelay < cfg.delay_prob →
       (delayStep cfg rolls m).latency_s = m.latency_s + (rolls.delayMs : ℚ) / 1000)) := by
  refine ⟨?_, delayStep_ammeter cfg rolls m, delayStep_timestamp cfg rolls m,
    delayStep_ok cfg rolls m, delayStep_value cfg rolls m, delayStep_error cfg rolls m,
    fun h => by simp [delayStep, h]⟩
  by_cases he : cfg.enabled = false
  · simp [FaultInjector.apply, he]
  · by_cases hdr : rolls.rDrop < cfg.drop_prob
    · simp [FaultInjector.apply, he, hdr]
    · by_cases hc : rolls.rCorrupt < cfg.corrupt_prob
      · simp [FaultInjector.apply, he, hdr, hc, delayStep_ammeter, delayStep_timestamp]
      · simp only [FaultInjector.apply, he, hdr, hc, Bool.false_eq_true, if_false]
        cases hok : (delayStep cfg rolls m).ok <;>
          cases hv : (delayStep cfg rolls m).value_a <;>
            simp [hok, hv, delayStep_ammeter, delayStep_timestamp] <;>
              split <;> simp [delayStep_ammeter, delayStep_timestamp]

def cfgDelayW : FaultInjectionCfg := { enabled := true, delay_prob := 1 }

theorem fault_apply_frame_witness :
    ((FaultInjector.apply cfgDropW rollsW mSample).ammeter = mSample.ammeter ∧
     (FaultInjector.apply cfgDropW rollsW mSample).timestamp_monotonic =
       mSample.timestamp_monotonic) ∧
    (delayStep cfgDelayW rollsW mSample).latency_s =
      mSample.latency_s + (rollsW.delayMs : ℚ) / 1000 :=
  ⟨(fault_apply_frame cfgDropW rollsW mSample).1,
   (fault_apply_frame cfgDelayW rollsW mSample).2.2.2.2.2.2 (by decide)⟩

/-- C10: when `delay_ms_max < delay_ms_min`, the upper bound handed to
`random.randint` is clamped to `max(delay_ms_min, delay_ms_max) =
delay_ms_min`, so the call's precondition (lower ≤ upper) still holds —
the inverted range cannot make the delay branch fail — and the only
possible sample is exactly `delay_ms_min`, so a firing delay branch adds
exactly `delay_ms_min` milliseconds to the latency. -/
theorem delay_range_clamped (cfg : FaultInjectionCfg) (rolls : Rolls)
    (m : Measurement) (hinv : cfg.delay_ms_max < cfg.delay_ms_min) :
    cfg.delay_ms_min ≤ delayUpper cfg ∧
    (validDelay cfg rolls.delayMs →
      rolls.delayMs = cfg.delay_ms_min ∧
      (rolls.rDelay < cfg.delay_prob →
        (delayStep cfg rolls m).latency_s =
          m.latency_s + (cfg.delay_ms_min : ℚ) / 1000)) := by
  have hup : delayUpper cfg = cfg.delay_ms_min := max_eq_left hinv.le
  refine ⟨hup.ge, fun hv => ?_⟩
  have hd : rolls.delayMs = cfg.delay_ms_min := le_antisymm (hup ▸ hv.2) hv.1
  exact ⟨hd, fun h => by simp [delayStep, h, hd]⟩

def cfgInvW : FaultInjectionCfg :=
  { enabled := true, delay_prob := 1, delay_ms_min := 5, delay_ms_max := 3 }

def rollsInvW : Rolls := ⟨1, 0, 1, 1, 5⟩

theorem delay_range_clamped_witness :
    cfgInvW.delay_ms_min ≤ delayUpper cfgInvW ∧
    rollsInvW.delayMs = cfgInvW.delay_ms_min ∧
    (delayStep cfgInvW rollsInvW mSample).latency_s =
      mSample.latency_s + (cfgInvW.delay_ms_min : ℚ) / 1000 := by
  have h := delay_range_clamped cfgInvW rollsInvW mSample (by decide)
  exact ⟨h.1, (h.2 ⟨by decide, by decide⟩).1, (h.2 ⟨by decide, by decide⟩).2 (by decide)⟩

/-- The Measurement invariant of the data model: `ok` holds exactly when a
value is present; an `ok` measurement carries no error, except the
`fault_outlier` audit marker; a measurement tagged `fault_outlier` is `ok`
and has a value. -/
def measInv (m : Measurement) : Prop :=
  (m.ok = true ↔ m.value_a.isSome = true) ∧
  (m.ok = true → m.error = none ∨ m.error = some "fault_outlier") ∧
  (m.error = some "fault_outlier" → m.ok = true ∧ m.value_a.isSome = true)

instance (m : Measurement) : Decidable (measInv m) := by
  unfold measInv; infer_instance

lemma pyRepr_ne_outlier (ty msg : List Char) :
    String.mk (pyRepr ty msg) ≠ "fault_outlier" := by
  intro h
  have hd : pyRepr ty msg = "fault_outlier".data := congrArg String.data h
  have hmem : '(' ∈ pyRepr ty msg :=
    List.mem_append_right _ (List.mem_cons_self _ _)
  rw [hd] at hmem
  exact absurd hmem (by decide)

lemma error_text_ne_outlier (resp : List Char)
    (h : List.isPrefixOf "ERROR:".data resp = true) :
    String.mk resp ≠ "fault_outlier" := by
  intro he
  have hd : resp = "fault_outlier".data := congrArg String.data he
  rw [hd] at h
  exact absurd h (by decide)

lemma measInv_delayStep (cfg : FaultInjectionCfg) (rolls : Rolls) (m : Measurement)
    (h : measInv m) : measInv (delayStep cfg rolls m) := by
  unfold measInv at h ⊢
  rw [delayStep_ok, delayStep_value, delayStep_error]
  exact h

/-- C1: every measurement built by `AmmeterClient.measure`, and every
measurement returned by `FaultInjector.apply` on an input satisfying the
invariant, satisfies it as well: `ok` iff a value is present, `ok` implies
no error apart from the `fault_outlier` audit marker, and a
`fault_outlier`-tagged measurement is `ok` with a value present. -/
theorem measurement_invariant :
    (∀ (name : String) (pf : List Char → Option ℚ) (outcome : NetOutcome)
      (t0 epoch t1 : ℚ), measInv (AmmeterClient.measure name pf outcome t0 epoch t1)) ∧
    (∀ (cfg : FaultInjectionCfg) (rolls : Rolls) (m : Measurement),
      measInv m → measInv (FaultInjector.apply cfg rolls m)) := by
  constructor
  · intro name pf outcome t0 epoch t1
    cases outcome with
    | recv data =>
      by_cases hdat : data = []
      · simp [AmmeterClient.measure, hdat, measInv]
      · by_cases herr : List.isPrefixOf "ERROR:".data (pyStrip data) = true
        · have hne := error_text_ne_outlier (pyStrip data) herr
          simp [AmmeterClient.measure, hdat, herr, measInv, hne]
        · cases hpf : pf (pyStrip data) with
          | some v =>
            simp [AmmeterClient.measure, hdat, herr, hpf, measInv]
          | none =>
            have hne := pyRepr_ne_outlier "ValueError".data (pyStrip data)
            simp [AmmeterClient.measure, hdat, herr, hpf, measInv, hne]
    | exn ty msg =>
      have hne := pyRepr_ne_outlier ty msg
      simp [AmmeterClient.measure, measInv, hne]
  · intro cfg rolls m hm
    by_cases he : cfg.enabled = false
    · simpa [FaultInjector.apply, he] using hm
    · by_cases hdr : rolls.rDrop < cfg.drop_prob
      · simp [FaultInjector.apply, he, hdr, measInv]
      · have hm1 : measInv (delayStep cfg rolls m) := measInv_delayStep cfg rolls m hm
        by_cases hc : rolls.rCorrupt < cfg.corrupt_prob
        · simp [FaultInjector.apply, he, hdr, hc, measInv]
        · simp only [FaultInjector.apply, he, hdr, hc, Bool.false_eq_true, if_false]
          cases hok : (delayStep cfg rolls m).ok with
          | false =>
            cases hv : (delayStep cfg rolls m).value_a with
            | none => simpa [hok, hv] using hm1
            | some v => simpa [hok, hv] using hm1
          | true =>
            cases hv : (delayStep cfg rolls m).value_a with
            | none => simpa [hok, hv] using hm1
            | some v =>
              by_cases ho : rolls.rOutlier < cfg.outlier_prob
              · simp [hok, hv, ho, measInv]
              · simpa [hok, hv, ho] using hm1

def mDropW : Measurement :=
  { ammeter := "a", timestamp_monotonic := 0, wall_time_epoch := 0
    value_a := none, latency_s := 0, ok := false, error := some "no_data" }

theorem measurement_invariant_witness :
    measInv (AmmeterClient.measure "a" (fun _ => some 1) (.recv ['1']) 0 0 1) ∧
    measInv mDropW ∧ measInv (FaultInjector.apply cfgDropW rollsW mDropW) :=
  ⟨measurement_invariant.1 "a" (fun _ => some 1) (.recv ['1']) 0 0 1,
   by decide,
   measurement_invariant.2 cfgDropW rollsW mDropW (by decide)⟩

/-- C5: `AmmeterClient.measure` is a total function of the exchange outcome
(no exception escapes), and each branch yields the documented Measurement:
empty payload ↦ `no_data`; `ERROR:`-prefixed (stripped) payload ↦ the full
stripped response text as the error; parsable payload ↦ `ok` with the
parsed value; parse failure ↦ the `ValueError` diagnostic; transport
exception ↦ the exception's diagnostic text. -/
theorem measure_branches (name : String) (pf : List Char → Option ℚ) (t0 epoch t1 : ℚ) :
    (AmmeterClient.measure name pf (.recv []) t0 epoch t1 =
      { ammeter := name, timestamp_monotonic := t0, wall_time_epoch := epoch
        value_a := none, latency_s := t1 - t0, ok := false, error := some "no_data" }) ∧
    (∀ data, data ≠ [] → List.isPrefixOf "ERROR:".data (pyStrip data) = true →
      AmmeterClient.measure name pf (.recv data) t0 epoch t1 =
        { ammeter := name, timestamp_monotonic := t0, wall_time_epoch := epoch
          value_a := none, latency_s := t1 - t0, ok := false
          error := some (String.mk (pyStrip data)) }) ∧
    (∀ data v, data ≠ [] → List.isPrefixOf "ERROR:".data (pyStrip data) = false →
      pf (pyStrip data) = some v →
      AmmeterClient.measure name pf (.recv data) t0 epoch t1 =
        { ammeter := name, timestamp_monotonic := t0, wall_time_epoch := epoch
          value_a := some v, latency_s := t1 - t0, ok := true, error := none }) ∧
    (∀ data, data ≠ [] → List.isPrefixOf "ERROR:".data (pyStrip data) = false →
      pf (pyStrip data) = none →
      AmmeterClient.measure name pf (.recv data) t0 epoch t1 =
        { ammeter := name, timestamp_monotonic := t0, wall_time_epoch := epoch
          value_a := none, latency_s := t1 - t0, ok := false
          error := some (String.mk (pyRepr "ValueError".data (pyStrip data))) }) ∧
    (∀ ty msg, AmmeterClient.measure name pf (.exn ty msg) t0 epoch t1 =
      { ammeter := name, timestamp_monotonic := t0, wall_time_epoch := epoch
        value_a := none, latency_s := t1 - t0, ok := false
        error := some (String.mk (pyRepr ty msg)) }) := by
  refine ⟨by simp [AmmeterClient.measure], ?_, ?_, ?_, fun ty msg => by
    simp [AmmeterClient.measure]⟩
  · intro data hdat herr
    simp [AmmeterClient.measure, hdat, herr]
  · intro data v hdat herr hpf
    simp [AmmeterClient.measure, hdat, herr, hpf]
  · intro data hdat herr hpf
    simp [AmmeterClient.measure, hdat, herr, hpf]

def pfW : List Char → Option ℚ := fun s => if s = ['1'] then some 1 else none

theorem measure_branches_witness :
    AmmeterClient.measure "a" pfW (.recv " ERROR: bad ".data) 0 0 1 =
      { ammeter := "a", timestamp_monotonic := 0, wall_time_epoch := 0
        value_a := none, latency_s := 1 - 0, ok := false
        error := some (String.mk (pyStrip " ERROR: bad ".data)) } ∧
    AmmeterClient.measure "a" pfW (.recv " 1 ".data) 0 0 1 =
      { ammeter := "a", timestamp_monotonic := 0, wall_time_epoch := 0
        value_a := some 1, latency_s := 1 - 0, ok := true, error := none } ∧
    AmmeterClient.measure "a" pfW (.recv "x".data) 0 0 1 =
      { ammeter := "a", timestamp_monotonic := 0, wall_time_epoch := 0
        value_a := none, latency_s := 1 - 0, ok := false
        error := some (String.mk (pyRepr "ValueError".data (pyStrip "x".data))) } :=
  ⟨(measure_branches "a" pfW 0 0 1).2.1 " ERROR: bad ".data (by decide) (by decide),
   (measure_branches "a" pfW 0 0 1).2.2.1 " 1 ".data 1 (by decide) (by decide) (by decide),
   (measure_branches "a" pfW 0 0 1).2.2.2.1 "x".data (by decide) (by decide) (by decide)⟩

lemma runAux_no_duration (cfg : SamplingCfg) (clients : List String)
    (measureF : ℕ → String → Measurement) (elapsed : ℕ → ℚ) (N : ℕ)
    (hc : cfg.measurements_count = some N) (hd : cfg.total_duration_seconds = none) :
    ∀ fuel n acc, n ≤ N → N - n < fuel →
      Sampler.runAux cfg clients measureF elapsed fuel n acc =
        some (acc ++ (List.range' n (N - n)).flatMap
          (fun t => clients.map (fun c => measureF t c))) := by
  intro fuel
  induction fuel with
  | zero => intro n acc _ h; omega
  | succ k ih =>
    intro n acc hn hfuel
    rcases Nat.lt_or_ge n N with hlt | hge
    · have hcs : countStop cfg n = false := by
        simp [countStop, hc, Nat.not_le.mpr hlt]
      have hds : durationStop cfg (elapsed n) = false := by
        simp [durationStop, hd]
      have hstep := ih (n + 1) (acc ++ clients.map (fun c => measureF n c))
        (by omega) (by omega)
      have hrange : List.range' n (N - n) = n :: List.range' (n + 1) (N - (n + 1)) := by
        have : N - n = (N - (n + 1)) + 1 := by omega
        rw [this, List.range'_succ]
      simp only [Sampler.runAux, hcs, hds, Bool.false_eq_true, if_false, hstep,
        hrange, List.flatMap_cons, List.append_assoc]
    · have hn' : n = N := le_antisymm hn hge
      subst hn'
      have hcs : countStop cfg n = true := by simp [countStop, hc]
      simp [Sampler.runAux, hcs]

lemma flatMap_ticks_length (clients : List String)
    (measureF : ℕ → String → Measurement) :
    ∀ N, ((List.range N).flatMap (fun t => clients.map (fun c => measureF t c))).length
      = N * clients.length := by
  intro N
  induction N with
  | zero => simp
  | succ k ih =>
    rw [List.range_succ]
    simp [ih, Nat.succ_mul]

lemma flatMap_ticks_countP (clients : List String)
    (measureF : ℕ → String → Measurement) (c : String)
    (hname : ∀ t c2, (measureF t c2).ammeter = c2)
    (hnodup : clients.Nodup) (hmem : c ∈ clients) :
    ∀ N, ((List.range N).flatMap (fun t => clients.map (fun c2 => measureF t c2))).countP
      (fun m => m.ammeter == c) = N := by
  intro N
  induction N with
  | zero => simp
  | succ k ih =>
    rw [List.range_succ]
    have honce : (clients.map (fun c2 => measureF k c2)).countP (fun m => m.ammeter == c)
        = 1 := by
      rw [List.countP_map]
      have : ((fun m : Measurement => m.ammeter == c) ∘ fun c2 => measureF k c2)
          = fun c2 => c2 == c := by
        funext c2
        simp [Function.comp, hname]
      rw [this]
      exact List.count_eq_one_of_mem hnodup hmem
    simp [List.countP_append, ih, honce]

/-- C4 (amended): with `measurements_count = N` set and
`total_duration_seconds` unset, `Sampler.run` produces exactly
`N * clients.length` measurements — `N` per device — for every behaviour
of the clock and of the individual polls.  (`hname` records that every
poll result carries its client's name, which holds for `AmmeterClient.measure`
composed with `FaultInjector.apply`.)  The original claim's "regardless of
`total_duration_seconds`" fails: see the counterexample. -/
theorem sampler_count_exact (cfg : SamplingCfg) (clients : List String)
    (measureF : ℕ → String → Measurement) (elapsed : ℕ → ℚ) (N fuel : ℕ)
    (hc : cfg.measurements_count = some N) (hd : cfg.total_duration_seconds = none)
    (hfuel : N < fuel) (hname : ∀ t c2, (measureF t c2).ammeter = c2)
    (hnodup : clients.Nodup) :
    Sampler.run cfg clients measureF elapsed fuel =
      some ((List.range N).flatMap (fun t => clients.map (fun c => measureF t c))) ∧
    ((List.range N).flatMap (fun t => clients.map (fun c => measureF t c))).length
      = N * clients.length ∧
    ∀ c ∈ clients,
      ((List.range N).flatMap (fun t => clients.map (fun c2 => measureF t c2))).countP
        (fun m => m.ammeter == c) = N := by
  refine ⟨?_, flatMap_ticks_length clients measureF N,
    fun c hmem => flatMap_ticks_countP clients measureF c hname hnodup hmem N⟩
  have h := runAux_no_duration cfg clients measureF elapsed N hc hd fuel 0 []
    (Nat.zero_le N) (by omega)
  rw [Sampler.run, h, List.nil_append, Nat.sub_zero, List.range_eq_range']

def mfW : ℕ → String → Measurement := fun _ c =>
  { ammeter := c, timestamp_monotonic := 0, wall_time_epoch := 0
    value_a := some 1, latency_s := 0, ok := true, error := none }

def cfgCntW : SamplingCfg :=
  { measurements_count := some 2, total_duration_seconds := none
    sampling_frequency_hz := 1 }

theorem sampler_count_exact_witness :
    Sampler.run cfgCntW ["a", "b"] mfW (fun _ => 0) 3 =
      some ((List.range 2).flatMap (fun t => ["a", "b"].map (fun c => mfW t c))) ∧
    ((List.range 2).flatMap (fun t => ["a", "b"].map (fun c => mfW t c))).length = 2 * 2 ∧
    ((List.range 2).flatMap (fun t => ["a", "b"].map (fun c2 => mfW t c2))).countP
      (fun m => m.ammeter == "a") = 2 := by
  have h := sampler_count_exact cfgCntW ["a", "b"] mfW (fun _ => 0) 2 3 rfl rfl
    (by decide) (fun t c2 => rfl) (by decide)
  exact ⟨h.1, h.2.1, h.2.2 "a" (by decide)⟩

def cfgDurW : SamplingCfg :=
  { measurements_count := some 1, total_duration_seconds := some 0
    sampling_frequency_hz := 1 }

/-- C4 (counterexample): the claim promises `N * k` measurements regardless
of `total_duration_seconds`, but `Sampler.run` checks the duration stop on
every tick; with `measurements_count = 1`, one client and
`total_duration_seconds = 0`, the duration condition fires before the first
poll (elapsed monotonic time is never negative) and the run returns zero
measurements instead of `1 * 1 = 1`. -/
theorem sampler_duration_counterexample :
    cfgDurW.measurements_count = some 1 ∧
    Sampler.run cfgDurW ["a"] mfW (fun _ => 0) 5 = some [] ∧
    (some [] : Option (List Measurement)).map List.length ≠ some (1 * ["a"].length) := by
  refine ⟨rfl, rfl, by decide⟩

lemma groupOf_cons_eq (k : String) (g : List Measurement)
    (tl : List (String × List Measurement)) (name : String) (h : k = name) :
    groupOf ((k, g) :: tl) name = g := by
  unfold groupOf
  rw [List.find?_cons_of_pos _ (by simp [h])]
  rfl

lemma groupOf_cons_ne (k : String) (g : List Measurement)
    (tl : List (String × List Measurement)) (name : String) (h : k ≠ name) :
    groupOf ((k, g) :: tl) name = groupOf tl name := by
  unfold groupOf
  rw [List.find?_cons_of_neg _ (by simp [h])]

lemma groupOf_addToGroup (acc : List (String × List Measurement)) (m : Measurement)
    (name : String) :
    groupOf (addToGroup acc m) name =
      if name = m.ammeter then groupOf acc name ++ [m] else groupOf acc name := by
  induction acc with
  | nil =>
    by_cases h : name = m.ammeter
    · rw [if_pos h, show addToGroup [] m = [(m.ammeter, [m])] from rfl,
        groupOf_cons_eq _ _ _ _ h.symm]
      simp [groupOf]
    · rw [if_neg h, show addToGroup [] m = [(m.ammeter, [m])] from rfl,
        groupOf_cons_ne _ _ _ _ (fun hh => h hh.symm)]
  | cons hd tl ih =>
    obtain ⟨k, g⟩ := hd
    by_cases hk : k = m.ammeter
    · rw [show addToGroup ((k, g) :: tl) m = (k, g ++ [m]) :: tl by
        simp [addToGroup, hk]]
      by_cases hname : name = m.ammeter
      · rw [if_pos hname, groupOf_cons_eq _ _ _ _ (hk.trans hname.symm),
          groupOf_cons_eq _ _ _ _ (hk.trans hname.symm)]
      · have hkname : k ≠ name := fun hh => hname (hh ▸ hk)
        rw [if_neg hname, groupOf_cons_ne _ _ _ _ hkname,
          groupOf_cons_ne _ _ _ _ hkname]
    · rw [show addToGroup ((k, g) :: tl) m = (k, g) :: addToGroup tl m by
        simp [addToGroup, hk]]
      by_cases hkname : k = name
      · have hnm : name ≠ m.ammeter := fun hh => hk (hkname.trans hh)
        rw [if_neg hnm, groupOf_cons_eq _ _ _ _ hkname,
          groupOf_cons_eq _ _ _ _ hkname]
      · rw [groupOf_cons_ne _ _ _ _ hkname, ih]
        by_cases hnm : name = m.ammeter
        · rw [if_pos hnm, if_pos hnm, groupOf_cons_ne _ _ _ _ hkname]
        · rw [if_neg hnm, if_neg hnm, groupOf_cons_ne _ _ _ _ hkname]

lemma keys_addToGroup (acc : List (String × List Measurement)) (m : Measurement) :
    (addToGroup acc m).map Prod.fst =
      if m.ammeter ∈ acc.map Prod.fst then acc.map Prod.fst
      else acc.map Prod.fst ++ [m.ammeter] := by
  induction acc with
  | nil => simp [addToGroup]
  | cons hd tl ih =>
    obtain ⟨k, g⟩ := hd
    by_cases hk : k = m.ammeter
    · rw [show addToGroup ((k, g) :: tl) m = (k, g ++ [m]) :: tl by
        simp [addToGroup, hk]]
      simp [List.mem_cons, hk.symm]
    · rw [show addToGroup ((k, g) :: tl) m = (k, g) :: addToGroup tl m by
        simp [addToGroup, hk]]
      by_cases hmem : m.ammeter ∈ tl.map Prod.fst
      · simp [List.mem_cons, hmem, ih]
      · simp [List.mem_cons, hmem, ih, Ne.symm hk]

lemma split_concat (ms : List Measurement) (m : Measurement) :
    split_by_ammeter (ms ++ [m]) = addToGroup (split_by_ammeter ms) m := by
  simp [split_by_ammeter, List.foldl_append]

lemma split_groupOf (ms : List Measurement) (name : String) :
    groupOf (split_by_ammeter ms) name = ms.filter (fun m => m.ammeter == name) := by
  induction ms using List.reverseRecOn with
  | nil => simp [split_by_ammeter, groupOf]
  | append_singleton l m ih =>
    rw [split_concat, groupOf_addToGroup, List.filter_append]
    by_cases h : name = m.ammeter
    · rw [if_pos h, ih]
      simp [h]
    · rw [if_neg h, ih]
      have hb : (m.ammeter == name) = false := by simp [Ne.symm h]
      simp [List.filter, hb]

lemma split_keys_nodup (ms : List Measurement) :
    ((split_by_ammeter ms).map Prod.fst).Nodup := by
  induction ms using List.reverseRecOn with
  | nil => simp [split_by_ammeter]
  | append_singleton l m ih =>
    rw [split_concat, keys_addToGroup]
    by_cases h : m.ammeter ∈ (split_by_ammeter l).map Prod.fst
    · rw [if_pos h]; exact ih
    · rw [if_neg h]
      simp [List.nodup_append, ih, h]

lemma find_mem_assoc (l : List (String × List Measurement))
    (p : String × List Measurement)
    (hnd : (l.map Prod.fst).Nodup) (hp : p ∈ l) :
    l.find? (fun q => q.1 = p.1) = some p := by
  induction l with
  | nil => cases hp
  | cons hd tl ih =>
    rcases List.mem_cons.mp hp with rfl | htl
    · rw [List.find?_cons_of_pos _ (by simp)]
    · rw [List.map_cons] at hnd
      have hnd' := List.nodup_cons.mp hnd
      have hne : hd.1 ≠ p.1 := by
        intro hh
        exact hnd'.1 (hh ▸ List.mem_map_of_mem Prod.fst htl)
      rw [List.find?_cons_of_neg _ (by simp [hne])]
      exact ih hnd'.2 htl

lemma mem_split_groupOf (ms : List Measurement) (p : String × List Measurement)
    (hp : p ∈ split_by_ammeter ms) :
    p.2 = groupOf (split_by_ammeter ms) p.1 := by
  unfold groupOf
  rw [find_mem_assoc _ p (split_keys_nodup ms) hp]
  rfl

/-- C2: the per-device statistics group measurements by device identifier
(each group is exactly the sublist of measurements carrying that name, in
order); `count` counts all of them, `ok_count` only the ok ones with a
value; mean, median, min and max are computed from the ok values alone and
are absent when there are none; the standard deviation is absent for zero
ok values, `0.0` for exactly one, and the population formula (divide by N)
for two or more. -/
theorem stats_by_ammeter_spec (ms : List Measurement) (name : String)
    (g : List Measurement) (hp : (name, g) ∈ split_by_ammeter ms) :
    (name, statsOf g) ∈ stats_by_ammeter ms ∧
    g = ms.filter (fun m => m.ammeter == name) ∧
    (statsOf g).count = g.length ∧
    (statsOf g).ok_count = (okValues g).length ∧
    (okValues g = [] →
      (statsOf g).mean = none ∧ (statsOf g).median = none ∧
      (statsOf g).std_dev = none ∧ (statsOf g).min = none ∧ (statsOf g).max = none) ∧
    (okValues g ≠ [] →
      (statsOf g).mean = some ((okValues g).sum / (okValues g).length) ∧
      (statsOf g).median = some (pymedian (okValues g)) ∧
      (statsOf g).min = some (pymin (okValues g)) ∧
      (statsOf g).max = some (pymax (okValues g))) ∧
    ((okValues g).length = 1 → (statsOf g).std_dev = some 0) ∧
    (2 ≤ (okValues g).length →
      (statsOf g).std_dev = some (Real.sqrt
        ((((okValues g).map
            (fun x => (x - (okValues g).sum / (okValues g).length) ^ 2)).sum
          / (okValues g).length : ℚ)))) := by
  refine ⟨List.mem_map_of_mem (fun p => (p.1, statsOf p.2)) hp, ?_, rfl, rfl, ?_, ?_, ?_, ?_⟩
  · have h := mem_split_groupOf ms (name, g) hp
    simpa [split_groupOf] using h
  · intro h
    simp [statsOf, compute_stats, h]
  · intro h
    simp [statsOf, compute_stats, h, fmean]
  · intro h
    have hne : okValues g ≠ [] := by
      intro hnil
      rw [hnil] at h
      exact absurd h (by decide)
    have hlt : ¬ 2 ≤ (okValues g).length := by omega
    simp [statsOf, compute_stats, hne, hlt]
  · intro h
    have hne : okValues g ≠ [] := by
      intro hnil
      rw [hnil] at h
      exact absurd h (by decide)
    simp [statsOf, compute_stats, hne, h, pstdev, pvariance, fmean]

def mW2 : Measurement :=
  { ammeter := "a", timestamp_monotonic := 2, wall_time_epoch := 3
    value_a := some 4, latency_s := 0, ok := true, error := none }

def msW : List Measurement := [mSample, mW2]

theorem stats_by_ammeter_spec_witness :
    ("a", [mSample, mW2]) ∈ split_by_ammeter msW ∧
    ("a", statsOf [mSample, mW2]) ∈ stats_by_ammeter msW ∧
    (statsOf [mSample, mW2]).count = [mSample, mW2].length := by
  have h := stats_by_ammeter_spec msW "a" [mSample, mW2] (by decide)
  exact ⟨by decide, h.1, h.2.2.1⟩

lemma sq_sum_nonneg (x : List ℚ) (c : ℚ) :
    0 ≤ (x.map (fun a => (a - c) ^ 2)).sum := by
  apply List.sum_nonneg
  intro q hq
  obtain ⟨a, _, rfl⟩ := List.mem_map.mp hq
  positivity

lemma sqrt_sq_sum_eq_zero_iff (x : List ℚ) (c : ℚ) :
    Real.sqrt (((x.map (fun a => (a - c) ^ 2)).sum : ℚ)) = 0 ↔
      (x.map (fun a => (a - c) ^ 2)).sum = 0 := by
  rw [Real.sqrt_eq_zero (by exact_mod_cast sq_sum_nonneg x c)]
  exact_mod_cast Iff.rfl

lemma pearson_none_iff (x y : List ℚ) :
    pearson x y = none ↔
      x.length < 2 ∨ y.length < 2 ∨ pvariance x = 0 ∨ pvariance y = 0 := by
  by_cases hlen : x.length < 2 ∨ y.length < 2
  · simp only [pearson, if_pos hlen]
    simp [hlen.elim Or.inl (fun h => Or.inr (Or.inl h))]
  · have hx : x.length ≠ 0 := by omega
    have hy : y.length ≠ 0 := by omega
    have hxq : (x.length : ℚ) ≠ 0 := by exact_mod_cast hx
    have hyq : (y.length : ℚ) ≠ 0 := by exact_mod_cast hy
    have hvx : pvariance x = 0 ↔ (x.map (fun a => (a - fmean x) ^ 2)).sum = 0 := by
      unfold pvariance
      rw [div_eq_zero_iff]
      simp [hxq]
    have hvy : pvariance y = 0 ↔ (y.map (fun b => (b - fmean y) ^ 2)).sum = 0 := by
      unfold pvariance
      rw [div_eq_zero_iff]
      simp [hyq]
    simp only [pearson, if_neg hlen]
    by_cases hden :
        Real.sqrt (((x.map (fun a => (a - fmean x) ^ 2)).sum : ℚ)) = 0 ∨
        Real.sqrt (((y.map (fun b => (b - fmean y) ^ 2)).sum : ℚ)) = 0
    · rw [if_pos hden]
      simp only [true_iff]
      rcases hden with h | h
      · exact Or.inr (Or.inr (Or.inl (hvx.mpr ((sqrt_sq_sum_eq_zero_iff x _).mp h))))
      · exact Or.inr (Or.inr (Or.inr (hvy.mpr ((sqrt_sq_sum_eq_zero_iff y _).mp h))))
    · rw [if_neg hden]
      push_neg at hden hlen
      refine iff_of_false (by simp) ?_
      push_neg
      refine ⟨by omega, by omega, ?_, ?_⟩
      · intro hc
        exact hden.1 ((sqrt_sq_sum_eq_zero_iff x _).mpr (hvx.mp hc))
      · intro hc
        exact hden.2 ((sqrt_sq_sum_eq_zero_iff y _).mpr (hvy.mp hc))

lemma pearson_basic : pearson [1, 2, 3] [1, 2, 3] = some 1 := by
  have h1 : fmean ([1, 2, 3] : List ℚ) = 2 := by norm_num [fmean]
  simp only [pearson, h1]
  rw [if_neg (by norm_num)]
  have hsum : ((([1, 2, 3] : List ℚ).map (fun a => (a - 2) ^ 2)).sum : ℚ) = 2 := by
    norm_num
  rw [hsum]
  have hs2 : Real.sqrt ((2 : ℚ) : ℝ) ≠ 0 := by
    rw [Real.sqrt_ne_zero']
    norm_num
  rw [if_neg (by push_neg; exact ⟨hs2, hs2⟩)]
  have hnum : ((([1, 2, 3].zip [1, 2, 3] : List (ℚ × ℚ)).map
      (fun p => (p.1 - 2) * (p.2 - 2))).sum : ℚ) = 2 := by norm_num
  rw [hnum]
  have hmul : Real.sqrt ((2 : ℚ) : ℝ) * Real.sqrt ((2 : ℚ) : ℝ) = 2 := by
    rw [Real.mul_self_sqrt (by norm_num)]
    norm_num
  rw [hmul]
  norm_num

lemma pairAgreement_basic :
    pairAgreement [1, 2, 3] [1, 2, 3] =
      { mae := some 0, rmse := some 0, correlation := some 1, paired_count := 3 } := by
  simp only [pairAgreement]
  norm_num
  refine ⟨by norm_num [fmean], ?_, pearson_basic⟩
  have h0 : fmean ([0, 0, 0] : List ℚ) = 0 := by norm_num [fmean]
  rw [h0]
  norm_num

def mkOk (name : String) (t v : ℚ) : Measurement :=
  { ammeter := name, timestamp_monotonic := t, wall_time_epoch := t
    value_a := some v, latency_s := 0, ok := true, error := none }

def msPair : List Measurement :=
  [mkOk "a" 0 1, mkOk "a" 1 2, mkOk "a" 2 3, mkOk "b" 0 1, mkOk "b" 1 2, mkOk "b" 2 3]

/-- C3: pairwise agreement pairs the sorted device names `(a, b)` with `a`
before `b` and compares the two devices' ok-value series (the values of
each device's measurements in original order), truncated to the shorter
length; the record holds mae, rmse, Pearson correlation and the pair
count, all `None` when no pairs remain; Pearson is undefined exactly for
series shorter than two points or with zero variance; and for two
identical series `[1.0, 2.0, 3.0]` the result is `mae = 0`, `rmse = 0`,
`correlation = 1`. -/
theorem pairwise_agreement_spec :
    (∀ (ms : List Measurement) (a b : String),
      (a, b) ∈ allPairs (List.insertionSort (fun x y => strLe x y = true)
        ((split_by_ammeter ms).map Prod.fst)) →
      ((a, b), pairAgreement (okValues (ms.filter (fun m => m.ammeter == a)))
          (okValues (ms.filter (fun m => m.ammeter == b))))
        ∈ pairwise_agreement ms) ∧
    (∀ xs0 ys0 : List ℚ,
      (min xs0.length ys0.length = 0 →
        pairAgreement xs0 ys0 =
          { mae := none, rmse := none, correlation := none, paired_count := 0 }) ∧
      (min xs0.length ys0.length ≠ 0 →
        pairAgreement xs0 ys0 =
          { mae := some (fmean (((xs0.take (min xs0.length ys0.length)).zip
              (ys0.take (min xs0.length ys0.length))).map (fun p => |p.1 - p.2|)))
            rmse := some (Real.sqrt ((fmean (((xs0.take (min xs0.length ys0.length)).zip
              (ys0.take (min xs0.length ys0.length))).map
                (fun p => (p.1 - p.2) ^ 2)) : ℚ)))
            correlation := pearson (xs0.take (min xs0.length ys0.length))
              (ys0.take (min xs0.length ys0.length))
            paired_count := min xs0.length ys0.length })) ∧
    (∀ x y : List ℚ, pearson x y = none ↔
      x.length < 2 ∨ y.length < 2 ∨ pvariance x = 0 ∨ pvariance y = 0) ∧
    pairwise_agreement msPair =
      [(("a", "b"),
        { mae := some 0, rmse := some 0, correlation := some 1, paired_count := 3 })] := by
  refine ⟨?_, ?_, pearson_none_iff, ?_⟩
  · intro ms a b hmem
    have h : ((a, b),
        pairAgreement (okValues (groupOf (split_by_ammeter ms) a))
          (okValues (groupOf (split_by_ammeter ms) b))) ∈ pairwise_agreement ms :=
      List.mem_map_of_mem _ hmem
    rw [split_groupOf, split_groupOf] at h
    exact h
  · intro xs0 ys0
    constructor
    · intro h
      simp [pairAgreement, h]
    · intro h
      simp only [pairAgreement, if_neg h]
  · have hsplit : split_by_ammeter msPair =
        [("a", [mkOk "a" 0 1, mkOk "a" 1 2, mkOk "a" 2 3]),
         ("b", [mkOk "b" 0 1, mkOk "b" 1 2, mkOk "b" 2 3])] := by decide
    have hga : okValues (groupOf (split_by_ammeter msPair) "a") = [1, 2, 3] := by decide
    have hgb : okValues (groupOf (split_by_ammeter msPair) "b") = [1, 2, 3] := by decide
    have hnames : List.insertionSort (fun x y => strLe x y = true)
        ((split_by_ammeter msPair).map Prod.fst) = ["a", "b"] := by decide
    have hpairs : allPairs ["a", "b"] = [("a", "b")] := by decide
    calc pairwise_agreement msPair
        = (allPairs ["a", "b"]).map (fun p =>
            (p, pairAgreement (okValues (groupOf (split_by_ammeter msPair) p.1))
              (okValues (groupOf (split_by_ammeter msPair) p.2)))) := by
          rw [pairwise_agreement, hnames]
      _ = [(("a", "b"),
            { mae := some 0, rmse := some 0, correlation := some 1, paired_count := 3 })] := by
          rw [hpairs]
          simp [hga, hgb, pairAgreement_basic]

theorem pairwise_agreement_spec_witness :
    ("a", "b") ∈ allPairs (List.insertionSort (fun x y => strLe x y = true)
      ((split_by_ammeter msPair).map Prod.fst)) ∧
    ((("a", "b"),
      pairAgreement (okValues (msPair.filter (fun m => m.ammeter == "a")))
        (okValues (msPair.filter (fun m => m.ammeter == "b"))))
      ∈ pairwise_agreement msPair) ∧
    pairAgreement ([] : List ℚ) ([] : List ℚ) =
      { mae := none, rmse := none, correlation := none, paired_count := 0 } ∧
    pearson [1] [1] = none := by
  have h := pairwise_agreement_spec
  exact ⟨by decide, h.1 msPair "a" "b" (by decide),
    (h.2.1 [] []).1 (by decide),
    (h.2.2.1 [1] [1]).mpr (Or.inl (by norm_num))⟩

lemma foldl_addAgreement (n : String) :
    ∀ (l : List ((String × String) × Agreement)) (sc : String → ℝ),
      (l.foldl addAgreementScores sc) n = sc n + (l.map (bonusFor n)).sum
  | [], sc => by simp
  | p :: t, sc => by
    rw [List.foldl_cons, foldl_addAgreement n t, List.map_cons, List.sum_cons]
    simp only [addAgreementScores]
    ring

lemma foldl_base (n : String) :
    ∀ (l : List (String × Stats)) (sc : String → ℝ),
      (l.foldl (fun sc p => fun m =>
        if m = p.1 then sc m + (2 * (successRate p.2 : ℝ) + stability p.2) else sc m) sc) n
      = sc n + (l.map (fun p =>
          if n = p.1 then 2 * (successRate p.2 : ℝ) + stability p.2 else 0)).sum
  | [], sc => by simp
  | p :: t, sc => by
    rw [List.foldl_cons, foldl_base n t, List.map_cons, List.sum_cons]
    by_cases h : n = p.1
    · rw [if_pos h, if_pos h]
      ring
    · rw [if_neg h, if_neg h]
      ring

lemma sum_if_zero (n : String) (f : Stats → ℝ) :
    ∀ l : List (String × Stats), n ∉ l.map Prod.fst →
      (l.map (fun p => if n = p.1 then f p.2 else 0)).sum = 0
  | [], _ => by simp
  | p :: t, h => by
    rw [List.map_cons] at h
    rw [List.map_cons, List.sum_cons,
      if_neg (fun hh => h (by rw [hh]; exact List.mem_cons_self _ _)),
      sum_if_zero n f t (fun hh => h (List.mem_cons_of_mem _ hh)), zero_add]

lemma sum_if_single (n : String) (s : Stats) (f : Stats → ℝ) :
    ∀ l : List (String × Stats), (l.map Prod.fst).Nodup → (n, s) ∈ l →
      (l.map (fun p => if n = p.1 then f p.2 else 0)).sum = f s
  | [], _, hmem => by cases hmem
  | p :: t, hnd, hmem => by
    rw [List.map_cons] at hnd
    have hnd' := List.nodup_cons.mp hnd
    rw [List.map_cons, List.sum_cons]
    rcases List.mem_cons.mp hmem with rfl | htl
    · rw [if_pos rfl, sum_if_zero n f t hnd'.1, add_zero]
    · have hne : n ≠ p.1 := by
        intro hh
        exact hnd'.1 (hh ▸ List.mem_map_of_mem Prod.fst htl)
      rw [if_neg hne, sum_if_single n s f t hnd'.2 htl, zero_add]

lemma baseScores_eq (stats : List (String × Stats)) (n : String) (s : Stats)
    (hnd : (stats.map Prod.fst).Nodup) (hmem : (n, s) ∈ stats) :
    baseScores stats n = 2 * (successRate s : ℝ) + stability s := by
  unfold baseScores
  rw [foldl_base n stats (fun _ => 0),
    sum_if_single n s (fun st => 2 * (successRate st : ℝ) + stability st) stats hnd hmem,
    zero_add]

/-- C6: every device's final score is twice its success rate `ok_count/count`
(0 when `count = 0`), plus the inverse-stability term `1/(1 + std_dev)`
(`std_dev` read as 0 when absent), plus one inverse-agreement bonus
`1/(1 + rmse)` for each agreement entry involving the device (skipped when
`rmse` is absent); the ranking is a permutation of the stats keys that is
sorted by descending final score, and equal-score devices keep the order
they have in the stats mapping (stability).  `hdom` restricts to inputs on
which the source's dict accesses `scores[a]`, `scores[b]` are defined. -/
theorem reliability_ranking_spec (stats : List (String × Stats))
    (ags : List ((String × String) × Agreement))
    (hnd : (stats.map Prod.fst).Nodup)
    (hdom : ∀ p ∈ ags, p.1.1 ∈ stats.map Prod.fst ∧ p.1.2 ∈ stats.map Prod.fst) :
    (∀ n s, (n, s) ∈ stats →
      finalScores stats ags n =
        2 * (successRate s : ℝ) + stability s + (ags.map (bonusFor n)).sum) ∧
    (reliability_ranking stats ags).Perm (stats.map Prod.fst) ∧
    (reliability_ranking stats ags).Sorted
      (fun a b => finalScores stats ags b ≤ finalScores stats ags a) ∧
    (∀ a b, finalScores stats ags a = finalScores stats ags b →
      List.Sublist [a, b] (stats.map Prod.fst) →
      List.Sublist [a, b] (reliability_ranking stats ags)) := by
  refine ⟨?_, ?_, ?_, ?_⟩
  · intro n s hmem
    rw [finalScores, foldl_addAgreement n ags (baseScores stats),
      baseScores_eq stats n s hnd hmem]
  · exact List.perm_insertionSort _ _
  · haveI : IsTotal String
        (fun a b => finalScores stats ags b ≤ finalScores stats ags a) :=
      ⟨fun a b => le_total _ _⟩
    haveI : IsTrans String
        (fun a b => finalScores stats ags b ≤ finalScores stats ags a) :=
      ⟨fun a b c h1 h2 => le_trans h2 h1⟩
    exact List.sorted_insertionSort _ _
  · intro a b heq hsub
    exact List.pair_sublist_insertionSort heq.ge hsub

def statsW : Stats :=
  { count := 2, ok_count := 1, mean := some 1, median := some 1
    std_dev := some 0, min := some 1, max := some 1 }

theorem reliability_ranking_spec_witness :
    finalScores [("a", statsW)] [] "a" =
      2 * (successRate statsW : ℝ) + stability statsW + (([] :
        List ((String × String) × Agreement)).map (bonusFor "a")).sum ∧
    (reliability_ranking [("a", statsW)] []).Perm ["a"] := by
  have h := reliability_ranking_spec [("a", statsW)] [] (by decide)
    (fun p hp => by cases hp)
  exact ⟨h.1 "a" statsW (List.mem_singleton.mpr rfl), h.2.1⟩
